import Mathlib

/-!
Shallow embedding of the SmartCompress FS compression lifecycle: the
metadata ledger (`compressed_marker.py`), the priority scanner
(`tanisha_module.py`), the compression executor (`smartcompress.py`) and
the decompression manager (`decompression.py`).

Modelling conventions:
* File contents are `List Nat` (byte sequences); POSIX timestamps are
  exact rationals `ℚ` (Python floats, modelled exactly).
* The filesystem and the ledger's `compressed_files` JSON object are
  association lists from `String` keys; writes replace in place (as a
  Python dict update / file overwrite does) and otherwise append.
* The external byte-stream codecs (`gzip`, `zlib`) and the SHA-256
  digest are library calls, not repository code; they are modelled by
  their contracts: a `Codec` is any compress/decompress pair whose
  decompressor inverts its compressor, and a hash is an arbitrary
  function from contents to hex-digest strings.
-/

/-- A file on disk: byte content plus last-access and last-modified times. -/
structure FSFile where
  content : List Nat
  atime : ℚ
  mtime : ℚ
  deriving DecidableEq, Repr

/-- Association-list lookup by string key (first binding wins). -/
def Assoc.lookup {β : Type} : List (String × β) → String → Option β
  | [], _ => none
  | q :: l, p => if q.1 = p then some q.2 else Assoc.lookup l p

/-- Replace the binding of `p` in place if present, otherwise append it
(the update discipline of both a Python dict and a file overwrite). -/
def Assoc.write {β : Type} : List (String × β) → String → β → List (String × β)
  | [], p, v => [(p, v)]
  | q :: l, p, v => if q.1 = p then (p, v) :: l else q :: Assoc.write l p v

/-- Remove every binding of `p` (a Python `del d[p]` / `os.remove`). -/
def Assoc.erase {β : Type} : List (String × β) → String → List (String × β)
  | [], _ => []
  | q :: l, p => if q.1 = p then Assoc.erase l p else q :: Assoc.erase l p

/-- The visible filesystem: paths mapped to files. -/
abbrev FS := List (String × FSFile)

/-- Test for `os.path.exists`. -/
def FS.pathExists (fs : FS) (p : String) : Bool :=
  (Assoc.lookup fs p).isSome

/-- One record of `metadata["compressed_files"]`, as written by
`CompressedMarker.mark_as_compressed`.  The `compression_timestamp` and
`file_type` fields of the JSON record are never read by any operation
modelled here and are omitted. -/
structure Entry where
  original_path : String
  compressed_path : String
  original_size : Nat
  compressed_size : Nat
  compression_method : String
  original_hash : String
  deriving DecidableEq, Repr

/-- The versioned ledger document kept in `compression_metadata.json`. -/
structure MetaDoc where
  version : String
  created : ℚ
  compressed_files : List (String × Entry)
  deriving DecidableEq, Repr

/-- CompressedMarker._calculate_file_hash: digest of the file's bytes,
`""` when the file cannot be read. -/
def _calculate_file_hash (hash : List Nat → String) (fs : FS) (p : String) : String :=
  match Assoc.lookup fs p with
  | some f => hash f.content
  | none => ""

/-- CompressedMarker.mark_as_compressed.  Hashes the original only if it
still exists, then stores the entry under the original path. -/
def mark_as_compressed (hash : List Nat → String) (fs : FS) (doc : MetaDoc)
    (original_path compressed_path : String)
    (original_size compressed_size : Nat)
    (compression_method : String) : Bool × MetaDoc :=
  let original_hash :=
    if FS.pathExists fs original_path then _calculate_file_hash hash fs original_path
    else ""
  let e : Entry :=
    { original_path := original_path
      compressed_path := compressed_path
      original_size := original_size
      compressed_size := compressed_size
      compression_method := compression_method
      original_hash := original_hash }
  (true, { doc with compressed_files := Assoc.write doc.compressed_files original_path e })

/-- CompressedMarker.is_compressed: membership of the path in the
`compressed_files` mapping. -/
def is_compressed (doc : MetaDoc) (p : String) : Bool :=
  (Assoc.lookup doc.compressed_files p).isSome

/-- CompressedMarker.get_compressed_file_info. -/
def get_compressed_file_info (doc : MetaDoc) (p : String) : Option Entry :=
  Assoc.lookup doc.compressed_files p

/-- CompressedMarker.unmark_compressed.  Returns (result, new document,
whether `_save_metadata` rewrote the stored document). -/
def unmark_compressed (doc : MetaDoc) (p : String) : Bool × MetaDoc × Bool :=
  if (Assoc.lookup doc.compressed_files p).isSome then
    (true, { doc with compressed_files := Assoc.erase doc.compressed_files p }, true)
  else
    (false, doc, false)

/-- CompressedMarker.cleanup_invalid_entries: drop every entry whose
compressed artifact no longer exists; returns the number removed. -/
def cleanup_invalid_entries (fs : FS) (doc : MetaDoc) : Nat × MetaDoc :=
  let keep := doc.compressed_files.filter
    (fun pe => FS.pathExists fs pe.2.compressed_path)
  (doc.compressed_files.length - keep.length,
   { doc with compressed_files := keep })

/-- FileInfo from `tanisha_module.py`: the scan-time record. -/
structure FileInfo where
  path : String
  size : Nat
  last_access_time : ℚ
  last_modified_time : ℚ
  file_type : String
  priority_score : ℚ := 0
  deriving DecidableEq, Repr

/-- TanishaModule.supported_extensions. -/
def supported_extensions : List String :=
  [".txt", ".log", ".json", ".csv", ".xml", ".yaml", ".yml"]

/-- TanishaModule.ignored_extensions. -/
def ignored_extensions : List String :=
  [".zip", ".gz", ".bz2", ".xz", ".7z", ".rar", ".tar",
   ".pdf", ".jpg", ".jpeg", ".png", ".gif", ".bmp", ".tiff",
   ".mp3", ".mp4", ".avi", ".mkv", ".mov", ".wmv",
   ".exe", ".dll", ".so", ".dylib", ".bin"]

/-- TanishaModule.min_file_size (1 KB). -/
def min_file_size : Nat := 1024

/-- TanishaModule.max_days_for_priority. -/
def max_days_for_priority : ℚ := 30

/-- TanishaModule._is_compressible, check by check in source order. -/
def _is_compressible (doc : MetaDoc) (fs : FS) (fi : FileInfo) : Bool :=
  if fi.file_type ∉ supported_extensions then false
  else if fi.file_type ∈ ignored_extensions then false
  else if fi.size < min_file_size then false
  else if is_compressed doc fi.path then false
  else if ¬ FS.pathExists fs fi.path then false
  else true

/-- TanishaModule.scan_directory, given the `FileInfo` records produced
by `_analyze_file` for the files encountered by the walk: the returned
compressible list keeps exactly those passing `_is_compressible`. -/
def scan_directory (doc : MetaDoc) (fs : FS) (files : List FileInfo) : List FileInfo :=
  files.filter (fun fi => _is_compressible doc fs fi)

/-- Maximum size appearing in the batch (`max(f.size for f in files)`). -/
def maxSizeIn (files : List FileInfo) : Nat :=
  files.foldl (fun m f => max m f.size) 0

/-- TanishaModule.calculate_priority_scores at current time `now`. -/
def calculate_priority_scores (now : ℚ) (files : List FileInfo) : List FileInfo :=
  files.map (fun fi =>
    let days_since_access : ℚ := (now - fi.last_access_time) / (24 * 3600)
    let access_score : ℚ := min (days_since_access / max_days_for_priority) 1
    let max_size : ℚ := if files.isEmpty then 1 else (maxSizeIn files : ℚ)
    let size_score : ℚ := if 0 < max_size then (fi.size : ℚ) / max_size else 0
    { fi with priority_score := access_score * 0.7 + size_score * 0.3 })

/-- TanishaModule.get_priority_files: scan, score, filter by minimum
priority, stable-sort descending by score, then truncate to `max_files`
when that argument is truthy (Python `if max_files:`). -/
def get_priority_files (doc : MetaDoc) (fs : FS) (files : List FileInfo) (now : ℚ)
    (max_files : Option Nat) (min_priority : ℚ) : List FileInfo :=
  let compressible_files := scan_directory doc fs files
  if compressible_files.isEmpty then []
  else
    let files_with_scores := calculate_priority_scores now compressible_files
    let high_priority_files :=
      files_with_scores.filter (fun f => decide (min_priority ≤ f.priority_score))
    let sorted :=
      high_priority_files.mergeSort (fun a b => decide (b.priority_score ≤ a.priority_score))
    match max_files with
    | some n => if n ≠ 0 then sorted.take n else sorted
    | none => sorted

/-- Contract of an external byte-stream codec (the `gzip` and `zlib`
libraries): any compressor/decompressor pair whose decompressor inverts
the compressor.  Decompression of arbitrary bytes may fail. -/
structure Codec where
  comp : List Nat → List Nat
  decomp : List Nat → Option (List Nat)
  round : ∀ b, decomp (comp b) = some b

/-- Method dispatch shared by SmartCompressFS.compress_file (the
gzip/zlib `if`/`elif` chain) and DecompressionManager's
`decompression_methods` table: both recognise exactly the strings
"gzip" and "zlib". -/
def methodCodec (gz zl : Codec) (m : String) : Option Codec :=
  if m = "gzip" then some gz else if m = "zlib" then some zl else none

/-- Destination name carrying a numeric suffix:
`f"{original_path}.{method}.{counter}"` built on top of the base
`f"{original_path}.{method}"`. -/
def nameWithCounter (base : String) (k : Nat) : String :=
  base ++ "." ++ toString k

/-- The `while os.path.exists(compressed_path)` loop of
SmartCompressFS.compress_file, tried from `counter`; `fuel` bounds the
number of iterations (the freshness theorem shows `fs.length + 1`
iterations always suffice, so the loop terminates). -/
def findFreeFrom (fs : FS) (base : String) : Nat → Nat → String
  | counter, 0 => nameWithCounter base counter
  | counter, fuel + 1 =>
    if FS.pathExists fs (nameWithCounter base counter) then
      findFreeFrom fs base (counter + 1) fuel
    else nameWithCounter base counter

/-- Destination-path choice of SmartCompressFS.compress_file: the base
name `original + "." + method` if free, else the first free numeric
suffix starting from 1. -/
def findFreeName (fs : FS) (base : String) : String :=
  if FS.pathExists fs base then findFreeFrom fs base 1 (fs.length + 1) else base

/-- Combined mutable state: the filesystem and the ledger document. -/
structure SysState where
  fs : FS
  doc : MetaDoc
  deriving DecidableEq, Repr

/-- SmartCompressFS.compress_file at time `now` using compression method
`method` (the `self.compression_method` field).  Returns the Python
boolean result and the new state. -/
def compress_file (gz zl : Codec) (hash : List Nat → String) (now : ℚ)
    (method : String) (fi : FileInfo) (st : SysState) : Bool × SysState :=
  let original_path := fi.path
  match Assoc.lookup st.fs original_path with
  | none => (false, st)
  | some f =>
    let compressed_path := findFreeName st.fs (original_path ++ "." ++ method)
    match methodCodec gz zl method with
    | none => (false, st)
    | some codec =>
      let cdata := codec.comp f.content
      let fs1 := Assoc.write st.fs compressed_path ⟨cdata, now, now⟩
      let compressed_size := cdata.length
      let doc1 := (mark_as_compressed hash fs1 st.doc original_path compressed_path
        fi.size compressed_size method).2
      let fs2 := Assoc.erase fs1 original_path
      (true, { fs := fs2, doc := doc1 })

/-- Result of DecompressionManager.decompress_file.  The Python method
returns a bare boolean; each `False` return site logs a distinct error,
modelled here as a distinct constructor (`ok` is the `True` return). -/
inductive DecompressResult where
  | ok
  | notFound
  | compressedMissing
  | unsupportedMethod
  | decompressFailed
  | integrityMismatch
  deriving DecidableEq, Repr

/-- The boolean actually returned by the Python method. -/
def DecompressResult.toBool : DecompressResult → Bool
  | .ok => true
  | _ => false

/-- DecompressionManager._verify_file_integrity: recompute the digest of
the file at `p` and compare with the expected hex digest (`false` when
the file cannot be read). -/
def _verify_file_integrity (hash : List Nat → String) (fs : FS)
    (p : String) (expected_hash : String) : Bool :=
  match Assoc.lookup fs p with
  | some f => hash f.content = expected_hash
  | none => false

/-- DecompressionManager.decompress_file at time `now`. -/
def decompress_file (gz zl : Codec) (hash : List Nat → String) (now : ℚ)
    (verify_integrity : Bool) (original_path : String) (st : SysState) :
    DecompressResult × SysState :=
  match get_compressed_file_info st.doc original_path with
  | none => (.notFound, st)
  | some e =>
    let compressed_path := e.compressed_path
    let compression_method := e.compression_method
    let original_hash := e.original_hash
    if ¬ FS.pathExists st.fs compressed_path then (.compressedMissing, st)
    else
      match methodCodec gz zl compression_method with
      | none => (.unsupportedMethod, st)
      | some codec =>
        -- backup of the original path if a file is already there
        let had_original := FS.pathExists st.fs original_path
        let backup_path := original_path ++ ".backup_" ++ toString (⌊now⌋ : ℤ)
        let fs1 :=
          match Assoc.lookup st.fs original_path with
          | some f0 => Assoc.write st.fs backup_path f0
          | none => st.fs
        -- the decompression routine reads the artifact and writes the output
        let decompressed :=
          match Assoc.lookup fs1 compressed_path with
          | some cf => codec.decomp cf.content
          | none => none
        match decompressed with
        | none =>
          -- restore backup if decompression failed
          let fs2 :=
            if had_original then
              match Assoc.lookup fs1 backup_path with
              | some bf => Assoc.erase (Assoc.write fs1 original_path bf) backup_path
              | none => fs1
            else fs1
          (.decompressFailed, { st with fs := fs2 })
        | some d =>
          let fs2 := Assoc.write fs1 original_path ⟨d, now, now⟩
          if verify_integrity ∧ original_hash ≠ "" then
            if ¬ _verify_file_integrity hash fs2 original_path original_hash then
              -- restore backup
              let fs3 :=
                if had_original then
                  match Assoc.lookup fs2 backup_path with
                  | some bf => Assoc.erase (Assoc.write fs2 original_path bf) backup_path
                  | none => fs2
                else fs2
              (.integrityMismatch, { st with fs := fs3 })
            else
              let fs3 := Assoc.erase fs2 compressed_path
              let doc2 := (unmark_compressed st.doc original_path).2.1
              let fs4 :=
                if had_original ∧ FS.pathExists fs3 backup_path then Assoc.erase fs3 backup_path
                else fs3
              (.ok, { fs := fs4, doc := doc2 })
          else
            let fs3 := Assoc.erase fs2 compressed_path
            let doc2 := (unmark_compressed st.doc original_path).2.1
            let fs4 :=
              if had_original ∧ FS.pathExists fs3 backup_path then Assoc.erase fs3 backup_path
              else fs3
            (.ok, { fs := fs4, doc := doc2 })

theorem Assoc.lookup_write_self {β : Type} (l : List (String × β)) (p : String) (v : β) :
    Assoc.lookup (Assoc.write l p v) p = some v := by
  induction l with
  | nil => simp [Assoc.write, Assoc.lookup]
  | cons q l ih =>
    by_cases h : q.1 = p
    · simp [Assoc.write, Assoc.lookup, h]
    · simp [Assoc.write, Assoc.lookup, h, ih]

theorem Assoc.lookup_write_ne {β : Type} (l : List (String × β)) (p q : String) (v : β)
    (h : q ≠ p) : Assoc.lookup (Assoc.write l p v) q = Assoc.lookup l q := by
  have hpq : p ≠ q := Ne.symm h
  induction l with
  | nil => simp [Assoc.write, Assoc.lookup, hpq]
  | cons r l ih =>
    by_cases hr : r.1 = p
    · simp [Assoc.write, Assoc.lookup, hr, hpq]
    · simp [Assoc.write, Assoc.lookup, hr, ih]

theorem Assoc.lookup_erase_self {β : Type} (l : List (String × β)) (p : String) :
    Assoc.lookup (Assoc.erase l p) p = none := by
  induction l with
  | nil => simp [Assoc.erase, Assoc.lookup]
  | cons q l ih =>
    by_cases h : q.1 = p
    · simp [Assoc.erase, h, ih]
    · simp [Assoc.erase, Assoc.lookup, h, ih]

theorem Assoc.lookup_erase_ne {β : Type} (l : List (String × β)) (p q : String)
    (h : q ≠ p) : Assoc.lookup (Assoc.erase l p) q = Assoc.lookup l q := by
  have hpq : p ≠ q := Ne.symm h
  induction l with
  | nil => simp [Assoc.erase]
  | cons r l ih =>
    by_cases hr : r.1 = p
    · simp [Assoc.erase, Assoc.lookup, hr, hpq, ih]
    · simp [Assoc.erase, Assoc.lookup, hr, ih]

theorem Assoc.lookup_isSome_iff_mem_keys {β : Type} (l : List (String × β)) (p : String) :
    (Assoc.lookup l p).isSome = true ↔ p ∈ l.map Prod.fst := by
  induction l with
  | nil => simp [Assoc.lookup]
  | cons q l ih =>
    by_cases h : q.1 = p <;> simp [Assoc.lookup, h, ih]
    exact fun h2 => (h h2.symm).elim

theorem Assoc.keys_write {β : Type} (l : List (String × β)) (p : String) (v : β) :
    (Assoc.write l p v).map Prod.fst =
      if (Assoc.lookup l p).isSome then l.map Prod.fst else l.map Prod.fst ++ [p] := by
  induction l with
  | nil => simp [Assoc.write, Assoc.lookup]
  | cons q l ih =>
    by_cases h : q.1 = p
    · simp [Assoc.write, Assoc.lookup, h]
    · simp only [Assoc.write, Assoc.lookup, h, if_neg, if_false, List.map_cons, ih]
      split <;> simp

theorem Assoc.nodup_keys_write {β : Type} (l : List (String × β)) (p : String) (v : β)
    (h : (l.map Prod.fst).Nodup) : ((Assoc.write l p v).map Prod.fst).Nodup := by
  rw [Assoc.keys_write]
  split
  · exact h
  · rename_i hn
    have hp : p ∉ l.map Prod.fst := by
      intro hmem
      exact hn ((Assoc.lookup_isSome_iff_mem_keys l p).2 hmem)
    rw [List.nodup_append]
    refine ⟨h, List.nodup_singleton p, ?_⟩
    intro a ha hb
    rw [List.mem_singleton] at hb
    exact hp (hb ▸ ha)

theorem Assoc.erase_sublist {β : Type} (l : List (String × β)) (p : String) :
    (Assoc.erase l p).Sublist l := by
  induction l with
  | nil => simp [Assoc.erase]
  | cons q l ih =>
    by_cases h : q.1 = p
    · simp only [Assoc.erase, h, if_pos]
      exact ih.cons q
    · simp only [Assoc.erase, h, if_neg, if_false]
      exact ih.cons₂ q

theorem Assoc.nodup_keys_erase {β : Type} (l : List (String × β)) (p : String)
    (h : (l.map Prod.fst).Nodup) : ((Assoc.erase l p).map Prod.fst).Nodup :=
  ((Assoc.erase_sublist l p).map Prod.fst).nodup h

/-- The identity codec: the simplest concrete pair satisfying the codec
contract, used to build concrete states in closed statements. -/
def idCodec : Codec := ⟨id, some, fun _ => rfl⟩

/-- An empty ledger document as `_create_empty_metadata` produces at
creation time `t`. -/
def emptyDoc (t : ℚ) : MetaDoc := ⟨"1.0", t, []⟩

/-- C7: calling `decompress_file` on a path that has no ledger entry
returns the NotFound failure and returns the state unchanged: no file is
created, deleted, overwritten or backed up, and the ledger document is
untouched. -/
theorem decompress_file_not_in_ledger (gz zl : Codec) (hash : List Nat → String)
    (now : ℚ) (verify : Bool) (p : String) (st : SysState)
    (h : Assoc.lookup st.doc.compressed_files p = none) :
    decompress_file gz zl hash now verify p st = (.notFound, st) := by
  simp [decompress_file, get_compressed_file_info, h]

/-- Witness for C7 at a concrete state: an empty filesystem and ledger. -/
theorem decompress_file_not_in_ledger_witness :
    Assoc.lookup (SysState.mk [] (emptyDoc 0)).doc.compressed_files "report.txt" = none ∧
      decompress_file idCodec idCodec (fun _ => "") 0 true "report.txt"
        (SysState.mk [] (emptyDoc 0)) = (.notFound, SysState.mk [] (emptyDoc 0)) :=
  ⟨rfl, decompress_file_not_in_ledger idCodec idCodec (fun _ => "") 0 true "report.txt"
    (SysState.mk [] (emptyDoc 0)) rfl⟩

/-- C10: `unmark_compressed` on a path absent from the compressed-files
mapping returns False, leaves the document unchanged, and does not
rewrite the stored document (no `_save_metadata` call). -/
theorem unmark_compressed_absent (doc : MetaDoc) (p : String)
    (h : Assoc.lookup doc.compressed_files p = none) :
    unmark_compressed doc p = (false, doc, false) := by
  simp [unmark_compressed, h]

/-- Witness for C10 on a concrete one-entry document and a different path. -/
theorem unmark_compressed_absent_witness :
    Assoc.lookup (emptyDoc 0).compressed_files "notes.log" = none ∧
      unmark_compressed (emptyDoc 0) "notes.log" = (false, emptyDoc 0, false) :=
  ⟨rfl, unmark_compressed_absent (emptyDoc 0) "notes.log" rfl⟩

theorem _is_compressible_iff (doc : MetaDoc) (fs : FS) (fi : FileInfo) :
    _is_compressible doc fs fi = true ↔
      fi.file_type ∈ supported_extensions ∧ fi.file_type ∉ ignored_extensions ∧
        min_file_size ≤ fi.size ∧ is_compressed doc fi.path = false ∧
        FS.pathExists fs fi.path = true := by
  unfold _is_compressible
  split_ifs with h1 h2 h3 h4 h5 <;> simp_all

/-- C3: a scanned file appears in the compressible list returned by the
scanner if and only if it was seen by the walk and satisfies all five
eligibility conditions: allow-listed extension, extension not on the
deny-list, size at least 1024 bytes, not already marked compressed in
the ledger, and present on disk. -/
theorem scan_directory_mem_iff (doc : MetaDoc) (fs : FS) (files : List FileInfo)
    (fi : FileInfo) :
    fi ∈ scan_directory doc fs files ↔
      fi ∈ files ∧ fi.file_type ∈ supported_extensions ∧
        fi.file_type ∉ ignored_extensions ∧ min_file_size ≤ fi.size ∧
        is_compressed doc fi.path = false ∧ FS.pathExists fs fi.path = true := by
  rw [scan_directory, List.mem_filter, _is_compressible_iff]

theorem Assoc.mem_write {β : Type} {l : List (String × β)} {k : String} {v : β}
    {pe : String × β} (h : pe ∈ Assoc.write l k v) : pe ∈ l ∨ pe = (k, v) := by
  induction l with
  | nil =>
    right
    simpa [Assoc.write] using h
  | cons q l ih =>
    by_cases hq : q.1 = k
    · rw [Assoc.write, if_pos hq] at h
      rcases List.mem_cons.1 h with h | h
      · right; exact h
      · left; exact List.mem_cons_of_mem _ h
    · rw [Assoc.write, if_neg hq] at h
      rcases List.mem_cons.1 h with h | h
      · left; exact h ▸ List.mem_cons_self _ _
      · rcases ih h with h2 | h2
        · left; exact List.mem_cons_of_mem _ h2
        · right; exact h2

theorem Assoc.lookup_isSome_of_mem {β : Type} {l : List (String × β)}
    {pe : String × β} (h : pe ∈ l) : (Assoc.lookup l pe.1).isSome = true := by
  induction l with
  | nil => simp at h
  | cons q l ih =>
    rcases List.mem_cons.1 h with h | h
    · subst h; simp [Assoc.lookup]
    · by_cases hq : q.1 = pe.1 <;> simp [Assoc.lookup, hq, ih h]

/-- Ledger documents reachable from the freshly initialised empty
document through CompressedMarker's mutating operations. -/
inductive ReachableDoc : MetaDoc → Prop where
  | empty (version : String) (created : ℚ) : ReachableDoc ⟨version, created, []⟩
  | mark (hash : List Nat → String) (fs : FS) (doc : MetaDoc)
      (original_path compressed_path : String)
      (original_size compressed_size : Nat) (method : String)
      (h : ReachableDoc doc) :
      ReachableDoc (mark_as_compressed hash fs doc original_path compressed_path
        original_size compressed_size method).2
  | unmark (doc : MetaDoc) (p : String) (h : ReachableDoc doc) :
      ReachableDoc (unmark_compressed doc p).2.1
  | cleanup (fs : FS) (doc : MetaDoc) (h : ReachableDoc doc) :
      ReachableDoc (cleanup_invalid_entries fs doc).2

theorem reachable_doc_invariant (doc : MetaDoc) (h : ReachableDoc doc) :
    (doc.compressed_files.map Prod.fst).Nodup ∧
      ∀ pe ∈ doc.compressed_files, pe.2.original_path = pe.1 := by
  induction h with
  | empty v t => simp
  | mark hash fs doc op cp os cs m h ih =>
    refine ⟨Assoc.nodup_keys_write _ _ _ ih.1, ?_⟩
    intro pe hpe
    rcases Assoc.mem_write hpe with h2 | h2
    · exact ih.2 pe h2
    · rw [h2]
  | unmark doc p h ih =>
    unfold unmark_compressed
    split
    · refine ⟨Assoc.nodup_keys_erase _ _ ih.1, ?_⟩
      intro pe hpe
      exact ih.2 pe ((Assoc.erase_sublist _ _).subset hpe)
    · exact ih
  | cleanup fs doc h ih =>
    refine ⟨((List.filter_sublist _).map Prod.fst).nodup ih.1, ?_⟩
    intro pe hpe
    exact ih.2 pe (List.mem_filter.1 hpe).1

/-- C9: in every ledger document reachable through the marker's
operations there is at most one entry per original path (the key list
has no duplicates), `is_compressed` holds of every stored entry's
original path, and immediately after a successful `unmark_compressed`
of a path, `is_compressed` of that path is false. -/
theorem ledger_consistency (doc : MetaDoc) (h : ReachableDoc doc) :
    ((doc.compressed_files.map Prod.fst).Nodup ∧
      ∀ pe ∈ doc.compressed_files, is_compressed doc pe.2.original_path = true) ∧
      ∀ p, (unmark_compressed doc p).1 = true →
        is_compressed (unmark_compressed doc p).2.1 p = false := by
  obtain ⟨hnd, hop⟩ := reachable_doc_invariant doc h
  refine ⟨⟨hnd, ?_⟩, ?_⟩
  · intro pe hpe
    rw [is_compressed, hop pe hpe]
    exact Assoc.lookup_isSome_of_mem hpe
  · intro p hp
    by_cases h1 : (Assoc.lookup doc.compressed_files p).isSome
    · simp [unmark_compressed, h1, is_compressed, Assoc.lookup_erase_self]
    · simp [unmark_compressed, h1] at hp

/-- Witness for C9: the document obtained by marking `report.txt` as
compressed in the empty ledger. -/
theorem ledger_consistency_witness :
    (((mark_as_compressed (fun _ => "h") [] (emptyDoc 0) "report.txt" "report.txt.gzip"
        2048 100 "gzip").2.compressed_files.map Prod.fst).Nodup ∧
      ∀ pe ∈ (mark_as_compressed (fun _ => "h") [] (emptyDoc 0) "report.txt"
          "report.txt.gzip" 2048 100 "gzip").2.compressed_files,
        is_compressed (mark_as_compressed (fun _ => "h") [] (emptyDoc 0) "report.txt"
          "report.txt.gzip" 2048 100 "gzip").2 pe.2.original_path = true) ∧
      ∀ p, (unmark_compressed (mark_as_compressed (fun _ => "h") [] (emptyDoc 0)
          "report.txt" "report.txt.gzip" 2048 100 "gzip").2 p).1 = true →
        is_compressed (unmark_compressed (mark_as_compressed (fun _ => "h") []
          (emptyDoc 0) "report.txt" "report.txt.gzip" 2048 100 "gzip").2 p).2.1 p = false :=
  ledger_consistency _ (ReachableDoc.mark (fun _ => "h") [] (emptyDoc 0)
    "report.txt" "report.txt.gzip" 2048 100 "gzip" (ReachableDoc.empty "1.0" 0))

/-- The scoring formula exactly as the specification states it:
`0.7 * min(daysSinceLastAccess / 30, 1.0) + 0.3 * (size / maxSizeInBatch)`
with the size term 0 when the batch is empty or its maximum size is 0,
and `daysSinceLastAccess = (current time - last access time)` in days.
Stated independently of the code, for comparison with
`calculate_priority_scores`. -/
def specPriorityScore (now : ℚ) (files : List FileInfo) (fi : FileInfo) : ℚ :=
  let daysSinceLastAccess : ℚ := (now - fi.last_access_time) / (24 * 3600)
  let sizeTerm : ℚ :=
    if files.isEmpty ∨ maxSizeIn files = 0 then 0
    else (fi.size : ℚ) / (maxSizeIn files : ℚ)
  0.7 * min (daysSinceLastAccess / 30) 1 + 0.3 * sizeTerm

/-- C5: for every non-empty batch and every position in it, the score
set by `calculate_priority_scores` equals the specification's formula
`0.7 * min(daysSinceLastAccess/30, 1) + 0.3 * (size / maxSizeInBatch)`. -/
theorem calculate_priority_scores_formula (now : ℚ) (files : List FileInfo)
    (i : Nat) (h : i < files.length) :
    ((calculate_priority_scores now files).get
        ⟨i, by simpa [calculate_priority_scores] using h⟩).priority_score =
      specPriorityScore now files (files.get ⟨i, h⟩) := by
  have hne : files ≠ [] := List.ne_nil_of_length_pos (Nat.lt_of_le_of_lt (Nat.zero_le i) h)
  simp only [calculate_priority_scores, List.get_eq_getElem, List.getElem_map,
    specPriorityScore, max_days_for_priority]
  rcases Nat.eq_zero_or_pos (maxSizeIn files) with h0 | h0
  · simp [hne, h0]
    ring
  · have h0q : (0 : ℚ) < (maxSizeIn files : ℚ) := by exact_mod_cast h0
    simp [hne, h0q, Nat.pos_iff_ne_zero.1 h0]
    ring

/-- Witness for C5 on a concrete one-file batch. -/
theorem calculate_priority_scores_formula_witness :
    0 < ([⟨"report.txt", 2048, 0, 0, ".txt", 0⟩] : List FileInfo).length ∧
      ((calculate_priority_scores 2592000 [⟨"report.txt", 2048, 0, 0, ".txt", 0⟩]).get
          ⟨0, by simp [calculate_priority_scores]⟩).priority_score =
        specPriorityScore 2592000 [⟨"report.txt", 2048, 0, 0, ".txt", 0⟩]
          (([⟨"report.txt", 2048, 0, 0, ".txt", 0⟩] : List FileInfo).get ⟨0, by simp⟩) :=
  ⟨by simp, calculate_priority_scores_formula 2592000 _ 0 (by simp)⟩

theorem le_maxSizeIn_aux (files : List FileInfo) (a : Nat) :
    a ≤ files.foldl (fun m f => max m f.size) a ∧
      ∀ f ∈ files, f.size ≤ files.foldl (fun m f => max m f.size) a := by
  induction files generalizing a with
  | nil => simp
  | cons g l ih =>
    refine ⟨le_trans (le_max_left a g.size) (ih (max a g.size)).1, ?_⟩
    intro f hf
    rcases List.mem_cons.1 hf with h | h
    · subst h
      exact le_trans (le_max_right a f.size) (ih _).1
    · exact (ih _).2 f h

theorem le_maxSizeIn (files : List FileInfo) (f : FileInfo) (hf : f ∈ files) :
    f.size ≤ maxSizeIn files :=
  (le_maxSizeIn_aux files 0).2 f hf

/-- C6 (amended): whenever no file of the batch has a recorded
last-access time in the future of the scan's current time, every
priority score computed by `calculate_priority_scores` lies in [0, 1].
A future last-access time drives the score negative (see the
counterexample). -/
theorem priority_score_bounds (now : ℚ) (files : List FileInfo)
    (hpast : ∀ f ∈ files, f.last_access_time ≤ now)
    (g : FileInfo) (hg : g ∈ calculate_priority_scores now files) :
    0 ≤ g.priority_score ∧ g.priority_score ≤ 1 := by
  rw [calculate_priority_scores, List.mem_map] at hg
  obtain ⟨fi, hfi, heq⟩ := hg
  subst heq
  have hne : files ≠ [] := List.ne_nil_of_mem hfi
  simp only [List.isEmpty_eq_true, hne, if_false]
  set days : ℚ := (now - fi.last_access_time) / (24 * 3600) with hdays
  have hd0 : 0 ≤ days := by
    apply div_nonneg _ (by norm_num)
    have := hpast fi hfi
    linarith
  have haccess0 : (0 : ℚ) ≤ min (days / max_days_for_priority) 1 := by
    apply le_min _ (by norm_num)
    apply div_nonneg hd0
    norm_num [max_days_for_priority]
  have haccess1 : min (days / max_days_for_priority) 1 ≤ 1 := min_le_right _ _
  rcases Nat.eq_zero_or_pos (maxSizeIn files) with h0 | h0
  · simp only [h0, Nat.cast_zero, lt_self_iff_false, if_false]
    constructor <;> nlinarith
  · have h0q : (0 : ℚ) < (maxSizeIn files : ℚ) := by exact_mod_cast h0
    have hsz : (fi.size : ℚ) ≤ (maxSizeIn files : ℚ) := by
      exact_mod_cast le_maxSizeIn files fi hfi
    have hs0 : (0 : ℚ) ≤ (fi.size : ℚ) / (maxSizeIn files : ℚ) :=
      div_nonneg (by positivity) (le_of_lt h0q)
    have hs1 : (fi.size : ℚ) / (maxSizeIn files : ℚ) ≤ 1 :=
      (div_le_one h0q).2 hsz
    simp only [h0q, if_pos]
    constructor <;> nlinarith

/-- Counterexample to C6 as stated: the claim quantifies over every
batch and every current time, but with current time 0 and a file whose
recorded last-access time lies 60 days in the future,
`calculate_priority_scores` produces the score -11/10, outside [0, 1]. -/
theorem priority_score_counterexample :
    (calculate_priority_scores 0 [⟨"a.txt", 2048, 5184000, 0, ".txt", 0⟩]).map
        FileInfo.priority_score = [-(11/10 : ℚ)] ∧ ¬ ((0 : ℚ) ≤ -(11/10 : ℚ)) := by
  refine ⟨?_, by norm_num⟩
  norm_num [calculate_priority_scores, maxSizeIn, max_days_for_priority, min_def]

/-- Witness for the amended C6 on a concrete batch with no future
access time: the computed score is 1, inside [0, 1]. -/
theorem priority_score_bounds_witness :
    0 ≤ ((⟨"report.txt", 2048, 0, 0, ".txt", 1⟩ : FileInfo)).priority_score ∧
      ((⟨"report.txt", 2048, 0, 0, ".txt", 1⟩ : FileInfo)).priority_score ≤ 1 :=
  priority_score_bounds 2592000 [⟨"report.txt", 2048, 0, 0, ".txt", 0⟩]
    (by intro f hf; simp at hf; subst hf; norm_num) _
    (by norm_num [calculate_priority_scores, maxSizeIn, max_days_for_priority])

theorem sorted_pipeline_mem (l : List FileInfo) (mp : ℚ) (f : FileInfo)
    (hf : f ∈ (l.filter (fun f => decide (mp ≤ f.priority_score))).mergeSort
      (fun a b => decide (b.priority_score ≤ a.priority_score))) :
    mp ≤ f.priority_score := by
  rw [List.mem_mergeSort] at hf
  simpa using (List.mem_filter.1 hf).2

theorem sorted_pipeline_pairwise (l : List FileInfo) (mp : ℚ) :
    ((l.filter (fun f => decide (mp ≤ f.priority_score))).mergeSort
      (fun a b => decide (b.priority_score ≤ a.priority_score))).Pairwise
      (fun a b => b.priority_score ≤ a.priority_score) := by
  have h : ((l.filter (fun f => decide (mp ≤ f.priority_score))).mergeSort
      (fun a b => decide (b.priority_score ≤ a.priority_score))).Pairwise
      (fun a b => (fun a b => decide (b.priority_score ≤ a.priority_score)) a b = true) :=
    List.sorted_mergeSort
      (fun a b c hab hbc => by
        simp only [decide_eq_true_eq] at hab hbc ⊢
        exact le_trans hbc hab)
      (fun a b => by
        simp only [Bool.or_eq_true, decide_eq_true_eq]
        exact le_total _ _)
      _
  exact h.imp (fun hab => by simpa using hab)

/-- C4 (amended): the list returned by `get_priority_files` contains
only records whose priority score is at least `min_priority`, is sorted
in descending score order (every later element's score is at most every
earlier one's), and has length at most `max_files` whenever `max_files`
is given and non-zero.  (With `max_files = 0` the Python truthiness test
`if max_files:` skips truncation; see the counterexample.) -/
theorem get_priority_files_spec (doc : MetaDoc) (fs : FS) (files : List FileInfo)
    (now : ℚ) (max_files : Option Nat) (min_priority : ℚ) :
    (∀ f ∈ get_priority_files doc fs files now max_files min_priority,
        min_priority ≤ f.priority_score) ∧
      (get_priority_files doc fs files now max_files min_priority).Pairwise
        (fun a b => b.priority_score ≤ a.priority_score) ∧
      ∀ n, max_files = some n → n ≠ 0 →
        (get_priority_files doc fs files now max_files min_priority).length ≤ n := by
  by_cases hemp : (scan_directory doc fs files).isEmpty = true
  · simp [get_priority_files, hemp]
  · rw [Bool.not_eq_true] at hemp
    rcases max_files with _ | n
    · simp only [get_priority_files, hemp, Bool.false_eq_true, if_false]
      exact ⟨fun f hf => sorted_pipeline_mem _ _ f hf, sorted_pipeline_pairwise _ _,
        fun n hn => by simp at hn⟩
    · simp only [get_priority_files, hemp, Bool.false_eq_true, if_false]
      by_cases hn : n = 0
      · subst hn
        simp only [ne_eq, not_true_eq_false, ite_false]
        refine ⟨fun f hf => sorted_pipeline_mem _ _ f hf, sorted_pipeline_pairwise _ _, ?_⟩
        intro m hm hm0
        rw [Option.some_inj] at hm
        exact absurd hm.symm hm0
      · simp only [ne_eq, hn, not_false_eq_true, ite_true]
        refine ⟨?_, ?_, ?_⟩
        · intro f hf
          exact sorted_pipeline_mem _ _ f (List.mem_of_mem_take hf)
        · exact (sorted_pipeline_pairwise _ _).sublist (List.take_sublist _ _)
        · intro m hm hm0
          rw [Option.some_inj] at hm
          subst hm
          exact List.length_take_le _ _

/-- Witness for C4 at a concrete input. -/
theorem get_priority_files_spec_witness :
    (∀ f ∈ get_priority_files (emptyDoc 0) [] [] 0 (some 1) 0.3,
        (0.3 : ℚ) ≤ f.priority_score) ∧
      (get_priority_files (emptyDoc 0) [] [] 0 (some 1) 0.3).Pairwise
        (fun a b => b.priority_score ≤ a.priority_score) ∧
      ∀ n, (some 1 : Option Nat) = some n → n ≠ 0 →
        (get_priority_files (emptyDoc 0) [] [] 0 (some 1) 0.3).length ≤ n :=
  get_priority_files_spec (emptyDoc 0) [] [] 0 (some 1) 0.3

/-- Counterexample to C4 as stated: with `max_files` given as 0, the
Python truthiness test `if max_files:` skips truncation, so the returned
list has length 1, exceeding the requested maximum of 0. -/
theorem get_priority_files_max_files_zero :
    (get_priority_files (emptyDoc 0) [("report.txt", ⟨[1], 0, 0⟩)]
        [⟨"report.txt", 2048, 0, 0, ".txt", 0⟩] 2592000 (some 0) 0.3).length = 1 ∧
      ¬ ((1 : Nat) ≤ 0) := by
  refine ⟨?_, by norm_num⟩
  have hscan : scan_directory (emptyDoc 0) [("report.txt", ⟨[1], 0, 0⟩)]
      [⟨"report.txt", 2048, 0, 0, ".txt", 0⟩] = [⟨"report.txt", 2048, 0, 0, ".txt", 0⟩] := by
    rfl
  rw [get_priority_files, hscan]
  norm_num [calculate_priority_scores, maxSizeIn, max_days_for_priority]

theorem toDigitsCore_eq_append (b : Nat) (fuel : Nat) :
    ∀ (n : Nat) (ds : List Char),
      Nat.toDigitsCore b fuel n ds = Nat.toDigitsCore b fuel n [] ++ ds := by
  induction fuel with
  | zero => intro n ds; simp [Nat.toDigitsCore]
  | succ fuel ih =>
    intro n ds
    simp only [Nat.toDigitsCore]
    by_cases h : n / b = 0
    · simp [h]
    · simp only [h, if_false, ite_false]
      rw [ih (n / b) (Nat.digitChar (n % b) :: ds), ih (n / b) [Nat.digitChar (n % b)]]
      simp

theorem toDigitsCore_fuel_eq (b : Nat) (hb : 2 ≤ b) :
    ∀ (n fuel₁ fuel₂ : Nat) (ds : List Char), n < fuel₁ → n < fuel₂ →
      Nat.toDigitsCore b fuel₁ n ds = Nat.toDigitsCore b fuel₂ n ds := by
  intro n
  induction n using Nat.strong_induction_on with
  | _ n ih =>
    intro fuel₁ fuel₂ ds h₁ h₂
    obtain ⟨f₁, rfl⟩ : ∃ f, fuel₁ = f + 1 := ⟨fuel₁ - 1, by omega⟩
    obtain ⟨f₂, rfl⟩ : ∃ f, fuel₂ = f + 1 := ⟨fuel₂ - 1, by omega⟩
    simp only [Nat.toDigitsCore]
    by_cases h : n / b = 0
    · simp [h]
    · simp only [h, if_false, ite_false]
      have hn0 : 0 < n := by
        rcases Nat.eq_zero_or_pos n with h0 | h0
        · exact absurd (by simp [h0]) h
        · exact h0
      have hdiv : n / b < n := Nat.div_lt_self hn0 (by omega)
      exact ih (n / b) hdiv f₁ f₂ _ (by omega) (by omega)

theorem toDigits_ten_lt (n : Nat) (h : n < 10) :
    Nat.toDigits 10 n = [Nat.digitChar n] := by
  have h0 : n / 10 = 0 := Nat.div_eq_of_lt h
  have h1 : n % 10 = n := Nat.mod_eq_of_lt h
  simp [Nat.toDigits, Nat.toDigitsCore, h0, h1]

theorem toDigitsCore_succ (b fuel n : Nat) (ds : List Char) :
    Nat.toDigitsCore b (fuel + 1) n ds =
      if n / b = 0 then Nat.digitChar (n % b) :: ds
      else Nat.toDigitsCore b fuel (n / b) (Nat.digitChar (n % b) :: ds) := by
  simp [Nat.toDigitsCore]

theorem toDigits_ten_ge (n : Nat) (h : 10 ≤ n) :
    Nat.toDigits 10 n = Nat.toDigits 10 (n / 10) ++ [Nat.digitChar (n % 10)] := by
  have h0 : n / 10 ≠ 0 := Nat.pos_iff_ne_zero.1 (Nat.div_pos h (by omega))
  have hd : n / 10 < n := Nat.div_lt_self (by omega) (by omega)
  rw [Nat.toDigits, toDigitsCore_succ, if_neg h0,
    toDigitsCore_eq_append 10 n (n / 10) [Nat.digitChar (n % 10)]]
  rw [Nat.toDigits]
  rw [toDigitsCore_fuel_eq 10 (by omega) (n / 10) n (n / 10 + 1) [] hd (by omega)]

theorem toDigits_ten_ne_nil (n : Nat) : Nat.toDigits 10 n ≠ [] := by
  by_cases h : n < 10
  · rw [toDigits_ten_lt n h]; simp
  · rw [toDigits_ten_ge n (by omega)]; simp

theorem digitChar_inj_lt : ∀ a < 10, ∀ b < 10, Nat.digitChar a = Nat.digitChar b → a = b := by
  decide

theorem toDigits_ten_injective : ∀ (m n : Nat), Nat.toDigits 10 m = Nat.toDigits 10 n → m = n := by
  intro m
  induction m using Nat.strong_induction_on with
  | _ m ih =>
    intro n hmn
    by_cases hm : m < 10 <;> by_cases hn : n < 10
    · rw [toDigits_ten_lt m hm, toDigits_ten_lt n hn] at hmn
      exact digitChar_inj_lt m hm n hn (List.singleton_inj.1 hmn)
    · rw [toDigits_ten_lt m hm, toDigits_ten_ge n (by omega)] at hmn
      cases h10 : Nat.toDigits 10 (n / 10) with
      | nil => exact absurd h10 (toDigits_ten_ne_nil (n / 10))
      | cons c cs => rw [h10] at hmn; simp at hmn
    · rw [toDigits_ten_ge m (by omega), toDigits_ten_lt n hn] at hmn
      cases h10 : Nat.toDigits 10 (m / 10) with
      | nil => exact absurd h10 (toDigits_ten_ne_nil (m / 10))
      | cons c cs => rw [h10] at hmn; simp at hmn
    · rw [toDigits_ten_ge m (by omega), toDigits_ten_ge n (by omega)] at hmn
      have hlen : ([Nat.digitChar (m % 10)] : List Char).length =
          ([Nat.digitChar (n % 10)] : List Char).length := by simp
      obtain ⟨hpre, hsuf⟩ := List.append_inj' hmn hlen
      have hdiv : m / 10 = n / 10 :=
        ih (m / 10) (Nat.div_lt_self (by omega) (by omega)) (n / 10) hpre
      have hmod : m % 10 = n % 10 :=
        digitChar_inj_lt (m % 10) (Nat.mod_lt m (by omega)) (n % 10)
          (Nat.mod_lt n (by omega)) (List.singleton_inj.1 hsuf)
      omega

theorem nat_repr_injective : ∀ (m n : Nat), Nat.repr m = Nat.repr n → m = n := by
  intro m n h
  apply toDigits_ten_injective
  have := congrArg String.data h
  simpa [Nat.repr, List.asString] using this

theorem nameWithCounter_injective (base : String) :
    ∀ (j k : Nat), nameWithCounter base j = nameWithCounter base k → j = k := by
  intro j k h
  apply nat_repr_injective
  apply String.ext
  have := congrArg String.data h
  simp only [nameWithCounter, String.data_append] at this
  have h2 := List.append_cancel_left this
  simpa [toString] using h2

/-- Pigeonhole: among the `fs.length + 1` counters `1 .. fs.length + 1`,
at least one suffixed name does not occur among the paths of `fs`. -/
theorem exists_free_counter (fs : FS) (base : String) :
    ∃ k, 1 ≤ k ∧ k ≤ fs.length + 1 ∧
      FS.pathExists fs (nameWithCounter base k) = false := by
  by_contra hcon
  push_neg at hcon
  have hall : ∀ k, 1 ≤ k → k ≤ fs.length + 1 →
      FS.pathExists fs (nameWithCounter base k) = true := by
    intro k h1 h2
    cases h : FS.pathExists fs (nameWithCounter base k) with
    | false => exact absurd h (hcon k h1 h2)
    | true => rfl
  classical
  have hsub : (Finset.Icc 1 (fs.length + 1)).image (nameWithCounter base) ⊆
      (fs.map Prod.fst).toFinset := by
    intro s hs
    rw [Finset.mem_image] at hs
    obtain ⟨k, hk, rfl⟩ := hs
    rw [Finset.mem_Icc] at hk
    rw [List.mem_toFinset]
    have := hall k hk.1 hk.2
    rw [FS.pathExists] at this
    exact (Assoc.lookup_isSome_iff_mem_keys fs (nameWithCounter base k)).1 this
  have hcard1 : ((Finset.Icc 1 (fs.length + 1)).image (nameWithCounter base)).card
      = fs.length + 1 := by
    rw [Finset.card_image_of_injOn (fun a _ b _ hab => nameWithCounter_injective base a b hab)]
    simp [Nat.card_Icc]
  have hcard2 : ((fs.map Prod.fst).toFinset).card ≤ fs.length := by
    calc ((fs.map Prod.fst).toFinset).card ≤ (fs.map Prod.fst).length :=
          List.toFinset_card_le _
      _ = fs.length := List.length_map _ _
  have := Finset.card_le_card hsub
  omega

theorem findFreeFrom_spec (fs : FS) (base : String) :
    ∀ (fuel counter : Nat),
      (∃ k, counter ≤ k ∧ k < counter + fuel ∧
        FS.pathExists fs (nameWithCounter base k) = false) →
      FS.pathExists fs (findFreeFrom fs base counter fuel) = false ∧
        ∃ k, counter ≤ k ∧ findFreeFrom fs base counter fuel = nameWithCounter base k ∧
          ∀ j, counter ≤ j → j < k → FS.pathExists fs (nameWithCounter base j) = true := by
  intro fuel
  induction fuel with
  | zero =>
    intro counter h
    obtain ⟨k, h1, h2, _⟩ := h
    omega
  | succ fuel ih =>
    intro counter h
    rw [findFreeFrom]
    by_cases hc : FS.pathExists fs (nameWithCounter base counter) = true
    · rw [if_pos hc]
      obtain ⟨k, hk1, hk2, hk3⟩ := h
      have hkc : k ≠ counter := by
        intro h
        rw [h] at hk3
        rw [hk3] at hc
        exact Bool.false_ne_true hc
      obtain ⟨hfree, k2, hk21, hk22, hk23⟩ :=
        ih (counter + 1) ⟨k, by omega, by omega, hk3⟩
      refine ⟨hfree, k2, by omega, hk22, ?_⟩
      intro j hj1 hj2
      rcases Nat.eq_or_lt_of_le hj1 with h | h
      · rw [← h]; exact hc
      · exact hk23 j (by omega) hj2
    · rw [Bool.not_eq_true] at hc
      rw [if_neg (by rw [hc]; exact Bool.false_ne_true)]
      exact ⟨hc, counter, le_refl _, rfl, fun j hj1 hj2 => by omega⟩

/-- C8: the destination chosen by `compress_file` (via `findFreeName`)
is `original + "." + method` when that name is free; otherwise numeric
suffixes `.1, .2, ...` are tried in increasing order until the first
name not on disk, so the chosen destination never coincides with an
existing path (compression never overwrites), and the search always
succeeds within `fs.length + 1` iterations for any finite filesystem
(the loop terminates). -/
theorem compress_destination_spec (fs : FS) (original_path method : String) :
    FS.pathExists fs (findFreeName fs (original_path ++ "." ++ method)) = false ∧
      (FS.pathExists fs (original_path ++ "." ++ method) = false →
        findFreeName fs (original_path ++ "." ++ method) =
          original_path ++ "." ++ method) ∧
      (FS.pathExists fs (original_path ++ "." ++ method) = true →
        ∃ k, 1 ≤ k ∧
          findFreeName fs (original_path ++ "." ++ method) =
            nameWithCounter (original_path ++ "." ++ method) k ∧
          ∀ j, 1 ≤ j → j < k →
            FS.pathExists fs (nameWithCounter (original_path ++ "." ++ method) j)
              = true) := by
  set base := original_path ++ "." ++ method with hbase
  by_cases hb : FS.pathExists fs base = true
  · obtain ⟨k0, hk01, hk02, hk03⟩ := exists_free_counter fs base
    obtain ⟨hfree, k, hk1, hk2, hk3⟩ :=
      findFreeFrom_spec fs base (fs.length + 1) 1 ⟨k0, hk01, by omega, hk03⟩
    rw [findFreeName, if_pos hb]
    refine ⟨hfree, fun h => ?_, fun _ => ⟨k, hk1, hk2, hk3⟩⟩
    rw [h] at hb
    exact absurd hb Bool.false_ne_true
  · rw [Bool.not_eq_true] at hb
    rw [findFreeName, if_neg (by rw [hb]; exact Bool.false_ne_true)]
    refine ⟨hb, fun _ => rfl, fun h => ?_⟩
    rw [h] at hb
    exact absurd hb.symm Bool.false_ne_true

/-- Witness for C8 on a concrete filesystem where the base name and the
first suffixed name are both taken. -/
theorem compress_destination_spec_witness :
    FS.pathExists [("a.txt.gzip", ⟨[], 0, 0⟩), ("a.txt.gzip.1", ⟨[], 0, 0⟩)]
        (findFreeName [("a.txt.gzip", ⟨[], 0, 0⟩), ("a.txt.gzip.1", ⟨[], 0, 0⟩)]
          ("a.txt" ++ "." ++ "gzip")) = false ∧
      (FS.pathExists [("a.txt.gzip", ⟨[], 0, 0⟩), ("a.txt.gzip.1", ⟨[], 0, 0⟩)]
          ("a.txt" ++ "." ++ "gzip") = false →
        findFreeName [("a.txt.gzip", ⟨[], 0, 0⟩), ("a.txt.gzip.1", ⟨[], 0, 0⟩)]
          ("a.txt" ++ "." ++ "gzip") = "a.txt" ++ "." ++ "gzip") ∧
      (FS.pathExists [("a.txt.gzip", ⟨[], 0, 0⟩), ("a.txt.gzip.1", ⟨[], 0, 0⟩)]
          ("a.txt" ++ "." ++ "gzip") = true →
        ∃ k, 1 ≤ k ∧
          findFreeName [("a.txt.gzip", ⟨[], 0, 0⟩), ("a.txt.gzip.1", ⟨[], 0, 0⟩)]
            ("a.txt" ++ "." ++ "gzip") = nameWithCounter ("a.txt" ++ "." ++ "gzip") k ∧
          ∀ j, 1 ≤ j → j < k →
            FS.pathExists [("a.txt.gzip", ⟨[], 0, 0⟩), ("a.txt.gzip.1", ⟨[], 0, 0⟩)]
              (nameWithCounter ("a.txt" ++ "." ++ "gzip") j) = true) :=
  compress_destination_spec [("a.txt.gzip", ⟨[], 0, 0⟩), ("a.txt.gzip.1", ⟨[], 0, 0⟩)]
    "a.txt" "gzip"

theorem compress_file_eq (gz zl : Codec) (hash : List Nat → String) (now : ℚ)
    (method : String) (fi : FileInfo) (st : SysState) (f : FSFile) (codec : Codec)
    (hf : Assoc.lookup st.fs fi.path = some f)
    (hcodec : methodCodec gz zl method = some codec) :
    compress_file gz zl hash now method fi st =
      (true,
        ⟨Assoc.erase
            (Assoc.write st.fs (findFreeName st.fs (fi.path ++ "." ++ method))
              ⟨codec.comp f.content, now, now⟩) fi.path,
          (mark_as_compressed hash
            (Assoc.write st.fs (findFreeName st.fs (fi.path ++ "." ++ method))
              ⟨codec.comp f.content, now, now⟩)
            st.doc fi.path (findFreeName st.fs (fi.path ++ "." ++ method)) fi.size
            (codec.comp f.content).length method).2⟩) := by
  rw [compress_file, hf, hcodec]

/-- C1 (amended): for any method in {gzip, zlib} and any file of at
least 1024 bytes, compressing with `compress_file` and then
decompressing with `decompress_file` succeeds and restores byte-identical
content at the original path — but the restored file's last-access and
last-modified timestamps are the decompression time `t2`, not the
original timestamps (the pipeline never records or reapplies them; see
the counterexample). -/
theorem compress_then_decompress_roundtrip (gz zl : Codec) (hash : List Nat → String)
    (t1 t2 : ℚ) (method : String) (fi : FileInfo) (st : SysState) (f : FSFile)
    (hmethod : method = "gzip" ∨ method = "zlib")
    (hf : Assoc.lookup st.fs fi.path = some f)
    (hsize : 1024 ≤ f.content.length) :
    (compress_file gz zl hash t1 method fi st).1 = true ∧
      (decompress_file gz zl hash t2 true fi.path
          (compress_file gz zl hash t1 method fi st).2).1 = .ok ∧
      Assoc.lookup (decompress_file gz zl hash t2 true fi.path
          (compress_file gz zl hash t1 method fi st).2).2.fs fi.path =
        some ⟨f.content, t2, t2⟩ := by
  obtain ⟨codec, hcodec⟩ : ∃ c, methodCodec gz zl method = some c := by
    rcases hmethod with h | h <;> subst h
    · exact ⟨gz, rfl⟩
    · exact ⟨zl, rfl⟩
  have hcomp := compress_file_eq gz zl hash t1 method fi st f codec hf hcodec
  set cp := findFreeName st.fs (fi.path ++ "." ++ method) with hcpdef
  have hcpfree : FS.pathExists st.fs cp = false :=
    (compress_destination_spec st.fs fi.path method).1
  have hpex : FS.pathExists st.fs fi.path = true := by
    rw [FS.pathExists, hf]; rfl
  have hcpne : cp ≠ fi.path := by
    intro h
    rw [h] at hcpfree
    rw [hcpfree] at hpex
    exact Bool.false_ne_true hpex
  set cfile : FSFile := ⟨codec.comp f.content, t1, t1⟩ with hcfile
  set fs1 := Assoc.write st.fs cp cfile with hfs1
  set fs2 := Assoc.erase fs1 fi.path with hfs2
  have hlook1 : Assoc.lookup fs1 fi.path = some f := by
    rw [hfs1, Assoc.lookup_write_ne st.fs cp fi.path cfile (Ne.symm hcpne), hf]
  set e : Entry := ⟨fi.path, cp, fi.size, (codec.comp f.content).length, method,
    hash f.content⟩ with hedef
  set doc1 : MetaDoc := ⟨st.doc.version, st.doc.created,
    Assoc.write st.doc.compressed_files fi.path e⟩ with hdoc1
  have hmark : (mark_as_compressed hash fs1 st.doc fi.path cp fi.size
      (codec.comp f.content).length method).2 = doc1 := by
    rw [mark_as_compressed]
    simp only [FS.pathExists, hlook1, Option.isSome_some, if_true, _calculate_file_hash]
  have h1 : get_compressed_file_info doc1 fi.path = some e := by
    rw [get_compressed_file_info]
    exact Assoc.lookup_write_self _ _ _
  have h6 : Assoc.lookup fs2 cp = some cfile := by
    rw [hfs2, Assoc.lookup_erase_ne fs1 fi.path cp hcpne, hfs1]
    exact Assoc.lookup_write_self _ _ _
  have h2 : FS.pathExists fs2 cp = true := by
    rw [FS.pathExists, h6]; rfl
  have h4 : Assoc.lookup fs2 fi.path = none := by
    rw [hfs2]; exact Assoc.lookup_erase_self _ _
  have h5 : FS.pathExists fs2 fi.path = false := by
    rw [FS.pathExists, h4]; rfl
  have h7 : codec.decomp cfile.content = some f.content := codec.round f.content
  have h8 : Assoc.lookup (Assoc.write fs2 fi.path ⟨f.content, t2, t2⟩) fi.path =
      some ⟨f.content, t2, t2⟩ := Assoc.lookup_write_self _ _ _
  have h9 : _verify_file_integrity hash (Assoc.write fs2 fi.path ⟨f.content, t2, t2⟩)
      fi.path (hash f.content) = true := by
    rw [_verify_file_integrity, h8]
    simp
  have h10 : (unmark_compressed doc1 fi.path).2.1 =
      (⟨doc1.version, doc1.created, Assoc.erase doc1.compressed_files fi.path⟩ : MetaDoc) := by
    rw [unmark_compressed]
    rw [show Assoc.lookup doc1.compressed_files fi.path = some e from
      Assoc.lookup_write_self _ _ _]
    simp only [Option.isSome_some, if_true]
  have hecp : e.compressed_path = cp := rfl
  have hem : e.compression_method = method := rfl
  have heh : e.original_hash = hash f.content := rfl
  have hmain : decompress_file gz zl hash t2 true fi.path ⟨fs2, doc1⟩ =
      (.ok, ⟨Assoc.erase (Assoc.write fs2 fi.path ⟨f.content, t2, t2⟩) cp,
        (⟨doc1.version, doc1.created,
          Assoc.erase doc1.compressed_files fi.path⟩ : MetaDoc)⟩) := by
    rw [decompress_file]
    simp only [h1]
    by_cases hh : hash f.content = ""
    · simp [hecp, hem, heh, h2, h5, hcodec, h4, h6, h7, h8, h9, h10, hh]
    · simp [hecp, hem, heh, h2, h5, hcodec, h4, h6, h7, h8, h9, h10, hh]
  have hcomp1 : (compress_file gz zl hash t1 method fi st).1 = true := by rw [hcomp]
  have hcomp2 : (compress_file gz zl hash t1 method fi st).2 = ⟨fs2, doc1⟩ := by
    rw [hcomp, hmark]
  have hmainr : (decompress_file gz zl hash t2 true fi.path ⟨fs2, doc1⟩).1 = .ok := by
    rw [hmain]
  have hmainfs : (decompress_file gz zl hash t2 true fi.path ⟨fs2, doc1⟩).2.fs =
      Assoc.erase (Assoc.write fs2 fi.path ⟨f.content, t2, t2⟩) cp := by
    rw [hmain]
  refine ⟨hcomp1, ?_, ?_⟩
  · rw [hcomp2]
    exact hmainr
  · rw [hcomp2, hmainfs, Assoc.lookup_erase_ne _ cp fi.path (Ne.symm hcpne)]
    exact h8

/-- Witness for the amended C1 on a concrete 1024-byte file. -/
theorem compress_then_decompress_roundtrip_witness :
    (compress_file idCodec idCodec (fun _ => "h") 10 "gzip"
        ⟨"a.txt", 1024, 5, 5, ".txt", 0⟩
        ⟨[("a.txt", ⟨List.replicate 1024 7, 5, 5⟩)], emptyDoc 0⟩).1 = true ∧
      (decompress_file idCodec idCodec (fun _ => "h") 20 true "a.txt"
          (compress_file idCodec idCodec (fun _ => "h") 10 "gzip"
            ⟨"a.txt", 1024, 5, 5, ".txt", 0⟩
            ⟨[("a.txt", ⟨List.replicate 1024 7, 5, 5⟩)], emptyDoc 0⟩).2).1 = .ok ∧
      Assoc.lookup (decompress_file idCodec idCodec (fun _ => "h") 20 true "a.txt"
          (compress_file idCodec idCodec (fun _ => "h") 10 "gzip"
            ⟨"a.txt", 1024, 5, 5, ".txt", 0⟩
            ⟨[("a.txt", ⟨List.replicate 1024 7, 5, 5⟩)], emptyDoc 0⟩).2).2.fs "a.txt" =
        some ⟨List.replicate 1024 7, 20, 20⟩ :=
  compress_then_decompress_roundtrip idCodec idCodec (fun _ => "h") 10 20 "gzip"
    ⟨"a.txt", 1024, 5, 5, ".txt", 0⟩
    ⟨[("a.txt", ⟨List.replicate 1024 7, 5, 5⟩)], emptyDoc 0⟩
    ⟨List.replicate 1024 7, 5, 5⟩ (Or.inl rfl) rfl
    (by rw [List.length_replicate])

/-- Counterexample to C1 as stated: a gzip round trip on a 1024-byte
file whose original access/modify times are 5 leaves the restored file
with modify time 20 (the decompression time), not the original 5 — the
pipeline never records or restores timestamps. -/
theorem roundtrip_timestamps_not_restored :
    1024 ≤ (List.replicate 1024 7).length ∧
      (Assoc.lookup (decompress_file idCodec idCodec (fun _ => "h") 20 true "a.txt"
          (compress_file idCodec idCodec (fun _ => "h") 10 "gzip"
            ⟨"a.txt", 1024, 5, 5, ".txt", 0⟩
            ⟨[("a.txt", ⟨List.replicate 1024 7, 5, 5⟩)], emptyDoc 0⟩).2).2.fs
        "a.txt").map FSFile.mtime = some 20 ∧ (20 : ℚ) ≠ 5 := by
  refine ⟨by rw [List.length_replicate], rfl, by norm_num⟩

/-- C2 (amended): when a ledger entry has a non-empty stored hash, the
compressed artifact exists and decompresses under the recorded method,
the recomputed hash of the decompressed bytes differs from the stored
hash, a file already existed at the original path, and the timestamped
backup name is fresh, then `decompress_file` with verification enabled
fails with IntegrityMismatch, the ledger document is untouched, and
every path of the filesystem — the original path included, restored from
the pre-operation backup — reads exactly as before the call.  (If no
file existed at the original path, the mismatching decompressed output
is left behind; see the counterexample.) -/
theorem decompress_integrity_mismatch (gz zl : Codec) (hash : List Nat → String)
    (now : ℚ) (p : String) (st : SysState) (e : Entry) (cf orig : FSFile)
    (codec : Codec) (d : List Nat)
    (hentry : Assoc.lookup st.doc.compressed_files p = some e)
    (hh : e.original_hash ≠ "")
    (hcf : Assoc.lookup st.fs e.compressed_path = some cf)
    (hcodec : methodCodec gz zl e.compression_method = some codec)
    (horig : Assoc.lookup st.fs p = some orig)
    (hbp : Assoc.lookup st.fs (p ++ ".backup_" ++ toString (⌊now⌋ : ℤ)) = none)
    (hdec : codec.decomp cf.content = some d)
    (hmismatch : hash d ≠ e.original_hash) :
    (decompress_file gz zl hash now true p st).1 = .integrityMismatch ∧
      (decompress_file gz zl hash now true p st).2.doc = st.doc ∧
      ∀ q, Assoc.lookup (decompress_file gz zl hash now true p st).2.fs q =
        Assoc.lookup st.fs q := by
  have hbpcp : (p ++ ".backup_" ++ toString (⌊now⌋ : ℤ)) ≠ e.compressed_path := by
    intro h
    rw [h, hcf] at hbp
    exact Option.some_ne_none cf hbp
  have hpbp : p ≠ (p ++ ".backup_" ++ toString (⌊now⌋ : ℤ)) := by
    intro h
    rw [← h, horig] at hbp
    exact Option.some_ne_none orig hbp
  have h2 : FS.pathExists st.fs e.compressed_path = true := by
    rw [FS.pathExists, hcf]; rfl
  have h5 : FS.pathExists st.fs p = true := by
    rw [FS.pathExists, horig]; rfl
  have hlf1cp : Assoc.lookup
      (Assoc.write st.fs (p ++ ".backup_" ++ toString (⌊now⌋ : ℤ)) orig)
      e.compressed_path = some cf := by
    rw [Assoc.lookup_write_ne _ _ _ _ (Ne.symm hbpcp)]
    exact hcf
  have hlf2p : Assoc.lookup
      (Assoc.write (Assoc.write st.fs (p ++ ".backup_" ++ toString (⌊now⌋ : ℤ)) orig)
        p ⟨d, now, now⟩) p = some ⟨d, now, now⟩ :=
    Assoc.lookup_write_self _ _ _
  have hver : _verify_file_integrity hash
      (Assoc.write (Assoc.write st.fs (p ++ ".backup_" ++ toString (⌊now⌋ : ℤ)) orig)
        p ⟨d, now, now⟩) p e.original_hash = false := by
    rw [_verify_file_integrity, hlf2p]
    simp [hmismatch]
  have hlf2bp : Assoc.lookup
      (Assoc.write (Assoc.write st.fs (p ++ ".backup_" ++ toString (⌊now⌋ : ℤ)) orig)
        p ⟨d, now, now⟩) (p ++ ".backup_" ++ toString (⌊now⌋ : ℤ)) = some orig := by
    rw [Assoc.lookup_write_ne _ _ _ _ (Ne.symm hpbp)]
    exact Assoc.lookup_write_self _ _ _
  have hmain : decompress_file gz zl hash now true p st =
      (.integrityMismatch,
        ⟨Assoc.erase
            (Assoc.write
              (Assoc.write (Assoc.write st.fs (p ++ ".backup_" ++ toString (⌊now⌋ : ℤ)) orig)
                p ⟨d, now, now⟩) p orig)
            (p ++ ".backup_" ++ toString (⌊now⌋ : ℤ)), st.doc⟩) := by
    rw [decompress_file]
    simp only [show get_compressed_file_info st.doc p = some e from hentry]
    simp [h2, hcodec, h5, horig, hlf1cp, hdec, hh, hver, hlf2bp]
  have hmainr : (decompress_file gz zl hash now true p st).1 = .integrityMismatch := by
    rw [hmain]
  have hmaindoc : (decompress_file gz zl hash now true p st).2.doc = st.doc := by
    rw [hmain]
  have hmainfs : (decompress_file gz zl hash now true p st).2.fs =
      Assoc.erase
        (Assoc.write
          (Assoc.write (Assoc.write st.fs (p ++ ".backup_" ++ toString (⌊now⌋ : ℤ)) orig)
            p ⟨d, now, now⟩) p orig)
        (p ++ ".backup_" ++ toString (⌊now⌋ : ℤ)) := by
    rw [hmain]
  refine ⟨hmainr, hmaindoc, ?_⟩
  intro q
  rw [hmainfs]
  by_cases hq1 : q = p ++ ".backup_" ++ toString (⌊now⌋ : ℤ)
  · rw [hq1, Assoc.lookup_erase_self, hbp]
  · rw [Assoc.lookup_erase_ne _ _ _ hq1]
    by_cases hq2 : q = p
    · rw [hq2, Assoc.lookup_write_self, horig]
    · rw [Assoc.lookup_write_ne _ _ _ _ hq2, Assoc.lookup_write_ne _ _ _ _ hq2,
        Assoc.lookup_write_ne _ _ _ _ hq1]

/-- Witness for the amended C2: a concrete ledger entry with stored hash
"X", an artifact that decompresses to bytes hashing to "Y", and a
pre-existing original, all at time 0. -/
theorem decompress_integrity_mismatch_witness :
    (decompress_file idCodec idCodec (fun _ => "Y") 0 true "a.txt"
        ⟨[("a.txt", ⟨[1, 2], 3, 3⟩), ("a.txt.gzip", ⟨[9, 9], 4, 4⟩)],
          ⟨"1.0", 0, [("a.txt", ⟨"a.txt", "a.txt.gzip", 2, 2, "gzip", "X"⟩)]⟩⟩).1 =
      .integrityMismatch ∧
      (decompress_file idCodec idCodec (fun _ => "Y") 0 true "a.txt"
          ⟨[("a.txt", ⟨[1, 2], 3, 3⟩), ("a.txt.gzip", ⟨[9, 9], 4, 4⟩)],
            ⟨"1.0", 0, [("a.txt", ⟨"a.txt", "a.txt.gzip", 2, 2, "gzip", "X"⟩)]⟩⟩).2.doc =
        ⟨"1.0", 0, [("a.txt", ⟨"a.txt", "a.txt.gzip", 2, 2, "gzip", "X"⟩)]⟩ ∧
      ∀ q, Assoc.lookup
          (decompress_file idCodec idCodec (fun _ => "Y") 0 true "a.txt"
            ⟨[("a.txt", ⟨[1, 2], 3, 3⟩), ("a.txt.gzip", ⟨[9, 9], 4, 4⟩)],
              ⟨"1.0", 0, [("a.txt", ⟨"a.txt", "a.txt.gzip", 2, 2, "gzip", "X"⟩)]⟩⟩).2.fs q =
        Assoc.lookup [("a.txt", ⟨[1, 2], 3, 3⟩), ("a.txt.gzip", ⟨[9, 9], 4, 4⟩)] q :=
  decompress_integrity_mismatch idCodec idCodec (fun _ => "Y") 0 "a.txt"
    ⟨[("a.txt", ⟨[1, 2], 3, 3⟩), ("a.txt.gzip", ⟨[9, 9], 4, 4⟩)],
      ⟨"1.0", 0, [("a.txt", ⟨"a.txt", "a.txt.gzip", 2, 2, "gzip", "X"⟩)]⟩⟩
    ⟨"a.txt", "a.txt.gzip", 2, 2, "gzip", "X"⟩ ⟨[9, 9], 4, 4⟩ ⟨[1, 2], 3, 3⟩ idCodec [9, 9]
    rfl (by decide) rfl rfl rfl rfl rfl (by decide)

/-- Counterexample to C2 as stated: when no file exists at the original
path before the call, an integrity mismatch still returns failure but
leaves the mismatching decompressed output behind at the original path —
the filesystem is not consistent with its pre-call state. -/
theorem decompress_integrity_mismatch_no_backup :
    (decompress_file idCodec idCodec (fun _ => "Y") 0 true "a.txt"
        ⟨[("a.txt.gzip", ⟨[9, 9], 4, 4⟩)],
          ⟨"1.0", 0, [("a.txt", ⟨"a.txt", "a.txt.gzip", 2, 2, "gzip", "X"⟩)]⟩⟩).1 =
      .integrityMismatch ∧
      Assoc.lookup ([("a.txt.gzip", ⟨[9, 9], 4, 4⟩)] : FS) "a.txt" = none ∧
      Assoc.lookup (decompress_file idCodec idCodec (fun _ => "Y") 0 true "a.txt"
          ⟨[("a.txt.gzip", ⟨[9, 9], 4, 4⟩)],
            ⟨"1.0", 0, [("a.txt", ⟨"a.txt", "a.txt.gzip", 2, 2, "gzip", "X"⟩)]⟩⟩).2.fs
        "a.txt" = some ⟨[9, 9], 0, 0⟩ ∧
      some (⟨[9, 9], 0, 0⟩ : FSFile) ≠ none :=
  ⟨rfl, rfl, rfl, by simp⟩
